import Mathlib

/-!
Verification development for the slackio message-distribution core.

The definitions below are shallow embeddings of the Go sources:

* `processStep`, `runSub` — the per-subscription worker loop of
  `subscription.go` (`subscription.process`);
* `stepB`, `runSteps`, `runBatcher` — the interval batcher loop of
  `batcher.go` (`NewIntervalBatcher`);
* `scanTokensAux`, `scanTokens`, `lineBatcherRun` — the line batcher of
  `batcher.go` (`LineBatcher`, via `bufio.ScanLines`);
* `SubTasks`, `SubStep` — the task/wait-group structure of
  `subscription.go` (`newSubscription`, `process`, `stop`).

The client file holding the message log (`messages`, `nextMessageID`,
`distribute`, `messageQueueSize`) is not part of the sources at hand, only
its callers and tests are; those definitions are modelled from the spec and
are marked as such in their doc comments.
-/

namespace Slackio

/-- A message in the log.  `message.go` carries `ChannelID` and `Text`; the
`ID` field is the monotonically assigned identifier used by
`subscription.go` and the client tests (spec data model §3). -/
structure Message where
  id : Int
  channelID : String
  text : String
deriving Repr, DecidableEq

instance : Inhabited Message := ⟨⟨0, "", ""⟩⟩

/-- Modelled from the spec: the Message Log portion of the client state that
is missing from the sources (its fields `messages` and `nextMessageID` are
referenced by `subscription.go` and `client_test.go`). -/
structure ClientLog where
  messages : List Message
  nextMessageID : Int
deriving Repr, DecidableEq

/-- The message-log capacity constant (`messageQueueSize` in
`client_test.go`; the spec gives "capacity N, e.g., 16"). -/
def messageQueueSize : Nat := 16

/-- The fields of a `slack.MessageEvent` inspected by the ingestion filter
(`client.go` `processIncomingMessage`, `client_test.go`
`TestDistributeFiltering`). -/
structure MessageEvent where
  type : String
  replyTo : Int
  threadTimestamp : String
  channel : String
  text : String
deriving Repr, DecidableEq

/-- Modelled from the spec: the drop condition of the bus ingestion handler
(spec §4.1; the `distribute` function itself is absent from the sources).
The four conditions match `processIncomingMessage` in `client.go` minus its
channel comparison, and the `TestDistribute` cases. -/
def dropsEvent (m : MessageEvent) : Bool :=
  m.type != "message" || m.replyTo > 0 || m.threadTimestamp != "" || m.text == ""

/-- The message constructed for an accepted event: its id is the log's
current `nextMessageID` (spec §4.1: "assign id = nextID"). -/
def newMessage (log : ClientLog) (channel text : String) : Message :=
  ⟨log.nextMessageID, channel, text⟩

/-- Modelled from the spec: the accepted-append path of `distribute`
(spec §4.1): append with id `nextID`, increment `nextID`, and evict the
oldest entry when the capacity `cap` is exceeded. -/
def appendMessage (cap : Nat) (log : ClientLog) (channel text : String) : ClientLog :=
  let appended := log.messages ++ [newMessage log channel text]
  { messages := if cap < appended.length then appended.tail else appended
    nextMessageID := log.nextMessageID + 1 }

/-- Modelled from the spec: the full ingestion handler — drop filtered
events silently, append the rest (spec §4.1). -/
def distribute (cap : Nat) (log : ClientLog) (m : MessageEvent) : ClientLog :=
  if dropsEvent m then log else appendMessage cap log m.channel m.text

/-- A sequence of accepted appends, `(channel, text)` pairs in order. -/
def appendMany (cap : Nat) (log : ClientLog) (xs : List (String × String)) : ClientLog :=
  xs.foldl (fun l x => appendMessage cap l x.1 x.2) log

/-- The messages a sequence of appends creates, with the ids they are
assigned (`n`, `n + 1`, …). -/
def streamFrom (n : Int) : List (String × String) → List Message
  | [] => []
  | x :: xs => ⟨n, x.1, x.2⟩ :: streamFrom (n + 1) xs

/-- The spec's log invariant (§3): entries have consecutive ids and, for a
non-empty log, the last id is `nextID - 1`; both are equivalent to every
entry at position `i` having id `nextID - length + i`. -/
def logOK (log : ClientLog) : Prop :=
  ∀ i < log.messages.length,
    (log.messages.getD i default).id =
      log.nextMessageID - (log.messages.length : Int) + (i : Int)

instance (log : ClientLog) : Decidable (logOK log) := by
  unfold logOK; infer_instance

/-- The part of the log invariant a subscription snapshot needs: entry `i`
has id `messages[0].id + i` (consecutive ids, spec §3). -/
def chainOK (msgs : List Message) : Prop :=
  ∀ i < msgs.length, (msgs.getD i default).id = (msgs.getD 0 default).id + (i : Int)

instance (msgs : List Message) : Decidable (chainOK msgs) := by
  unfold chainOK; infer_instance

/-- `messages[0].ID` in `subscription.process`. -/
def oldestId (msgs : List Message) : Int := (msgs.getD 0 default).id

/-- `messages[len(messages)-1].ID` in `subscription.process`. -/
def newestId (msgs : List Message) : Int := (msgs.getD (msgs.length - 1) default).id

/-- The outcome of one pass of the `subscription.process` loop body against
one snapshot of the log. -/
inductive StepResult where
  | skip (newId : Int)
  | deliver (m : Message) (newId : Int)
  | wait
  | crash
deriving Repr, DecidableEq

/-- One pass of the loop body of `subscription.process`
(`subscription.go`): with a non-empty log, a cursor below the oldest
retained id skips to one past the newest; a cursor within the window picks
the message at index `s.id - messages[0].ID` and advances; otherwise the
worker waits for new data.  `crash` models the index-out-of-range panic Go
would raise if the indexed entry did not exist. -/
def processStep (msgs : List Message) (id : Int) : StepResult :=
  if msgs.isEmpty then .wait
  else if id < oldestId msgs then .skip (newestId msgs + 1)
  else if id ≤ newestId msgs then
    match msgs[(id - oldestId msgs).toNat]? with
    | some m => .deliver m (id + 1)
    | none => .crash
  else .wait

/-- Observable events of a subscription worker's run. -/
inductive SubEvent where
  | delivered (m : Message)
  | skipped (newId : Int)
  | waited
  | crashed
deriving Repr, DecidableEq

/-- A run of the `subscription.process` loop: each element of `snaps` is the
snapshot of `client.messages` the worker sees on one pass (appends by the
producer may change it between passes). -/
def runSub : List (List Message) → Int → List SubEvent
  | [], _ => []
  | s :: rest, id =>
    match processStep s id with
    | .deliver m newId => .delivered m :: runSub rest newId
    | .skip newId => .skipped newId :: runSub rest newId
    | .wait => .waited :: runSub rest id
    | .crash => [.crashed]

/-- The ids delivered to the subscription's output queue, in order. -/
def deliveredIds (evs : List SubEvent) : List Int :=
  evs.filterMap fun e =>
    match e with
    | .delivered m => some m.id
    | _ => none

/-- Gap-freedom of a delivery trace: each delivered id equals the expected
next id, except that a skip-forward resets the expectation. -/
def noGaps : Option Int → List SubEvent → Prop
  | _, [] => True
  | expect, .delivered m :: rest =>
    (match expect with
     | some e => m.id = e
     | none => True) ∧ noGaps (some (m.id + 1)) rest
  | _, .skipped _ :: rest => noGaps none rest
  | expect, .waited :: rest => noGaps expect rest
  | expect, .crashed :: rest => noGaps expect rest

/-- Interval batcher state (`batcher.go` `NewIntervalBatcher`): the `output`
buffer string and whether a timer is currently armed (`timer != nil`). -/
structure BState where
  output : String
  timerArmed : Bool
deriving Repr, DecidableEq

/-- The state when the batcher goroutine starts. -/
def initBState : BState := ⟨"", false⟩

/-- `flushOutput` in `NewIntervalBatcher`: the batches it sends (one, when
the buffer is non-blank; none otherwise). -/
def flushBatches (st : BState) : List String :=
  if st.output = "" then [] else [st.output]

/-- Non-terminal events the batcher's select loop can observe: a unit
arriving on the input channel, or the armed timer firing. -/
inductive BEvent where
  | unit (s : String)
  | timer
deriving Repr, DecidableEq

/-- How the upstream's termination is observed by the select loop: the input
channel is seen closed, or a value (a Go `error`, possibly nil) is read from
the upstream error channel. -/
inductive BTermination (ε : Type) where
  | closed
  | upstreamErr (e : Option ε)
deriving Repr, DecidableEq

/-- One non-terminal iteration of the `NewIntervalBatcher` select loop:
a unit is stored (first unit) or appended behind the delimiter, and the
timer is armed if it was not; timer expiry flushes the buffer and disarms.
Returns the new state and the batches emitted. -/
def stepB (delim : String) (st : BState) : BEvent → BState × List String
  | .unit s =>
    (⟨if st.output = "" then s else st.output ++ delim ++ s, true⟩, [])
  | .timer => (⟨"", false⟩, flushBatches st)

/-- `timer = timeAfter(d)` is executed on this iteration: only on receiving
a unit while no timer is armed (`if timer == nil`). -/
def armsTimer (st : BState) : BEvent → Bool
  | .unit _ => !st.timerArmed
  | .timer => false

/-- The batcher loop over a sequence of non-terminal events, accumulating
the batches sent on the output channel. -/
def runSteps (delim : String) (st : BState) : List BEvent → BState × List String
  | [] => (st, [])
  | e :: es =>
    let p := stepB delim st e
    let q := runSteps delim p.1 es
    (q.1, p.2 ++ q.2)

/-- A complete run of `NewIntervalBatcher`: the events observed before the
upstream terminates, then the termination.  On either termination path the
deferred `flushOutput` emits any pending buffer; reading the error channel
after that yields the forwarded upstream error, or nil when the loop
returned because the input channel closed (the output error channel is then
closed without a value). -/
def runBatcher {ε : Type} (delim : String) (evs : List BEvent)
    (t : BTermination ε) : List String × Option ε :=
  let p := runSteps delim initBState evs
  match t with
  | .closed => (p.2 ++ flushBatches p.1, none)
  | .upstreamErr e => (p.2 ++ flushBatches p.1, e)

/-- Which ready branch the select loop of `NewIntervalBatcher` takes when
the upstream has terminated: reading the terminal error from the upstream
error channel (`case err := <-inErrCh`), or seeing the unit channel closed
(`case s, ok := <-inCh` with `ok` false).  An upstream such as
`LineBatcher` sends its terminal error — nil or not — on its buffered
error channel and then closes its unit channel, so after that both
branches are ready and Go's select may take either. -/
inductive TermObserved where
  | errorRead
  | closedSeen
deriving Repr, DecidableEq

/-- A complete run of `NewIntervalBatcher` against an upstream that has
terminated with terminal error `upErr` (sent on its error channel before
the unit channel closes, as `LineBatcher` does): `evs` are the
non-terminal events and `obs` the branch the final select took.  In the
`errorRead` branch the loop forwards the value it read; in the
`closedSeen` branch it returns without reading the error channel and the
deferred cleanup closes the output error channel empty, so the consumer
reads nil regardless of `upErr`.  Either way the deferred `flushOutput`
emits any pending buffer. -/
def runBatcherFrom {ε : Type} (delim : String) (evs : List BEvent)
    (upErr : Option ε) (obs : TermObserved) : List String × Option ε :=
  let p := runSteps delim initBState evs
  match obs with
  | .errorRead => (p.2 ++ flushBatches p.1, upErr)
  | .closedSeen => (p.2 ++ flushBatches p.1, none)

/-- `dropCR` from `bufio.ScanLines`: strip one trailing carriage return. -/
def dropCR (l : List Char) : List Char :=
  if l.getLast? = some '\r' then l.dropLast else l

/-- The scanner loop with `acc` holding the data of the current
(not yet newline-terminated) token: a newline emits `dropCR acc` and starts
over; at EOF a non-empty remainder is emitted as a final token. -/
def scanTokensAux (acc : List Char) : List Char → List (List Char)
  | [] => if acc.isEmpty then [] else [dropCR acc]
  | c :: rest =>
    if c = '\n' then dropCR acc :: scanTokensAux [] rest
    else scanTokensAux (acc ++ [c]) rest

/-- The token sequence `bufio.Scanner` produces with the default
`bufio.ScanLines` split function (`LineBatcher` in `batcher.go`): each
newline-terminated segment with `dropCR` applied, and, at EOF, any
remaining non-empty data as a final token. -/
def scanTokens (cs : List Char) : List (List Char) :=
  scanTokensAux [] cs

/-- `LineBatcher` in `batcher.go`: the tokens of the scanned content are
sent on the output channel in order, then `scanner.Err()` — nil at plain
EOF (`readErr = none`), the source reader's error otherwise — is sent on
the error channel. -/
def lineBatcherRun {ε : Type} (content : List Char) (readErr : Option ε) :
    List (List Char) × Option ε :=
  (scanTokens content, readErr)

/-- The claim's reading of the line batcher output: the input's
newline-separated lines (final empty segment after a trailing newline not
counted; a trailing partial line counted), each taken verbatim. -/
def specLines (content : List Char) : List (List Char) :=
  if content = [] then []
  else if content.getLast? = some '\n' then (content.splitOn '\n').dropLast
  else content.splitOn '\n'

/-- The task structure of one subscription (`subscription.go`):
whether `s.done` is closed, whether the `process` goroutine is still
running, whether an inner waiter goroutine (spawned in the wait branch of
`process`) is still blocked in `messagesCond.Wait`, and the counter of
`s.wg` (incremented once, in `newSubscription`, for the `process`
goroutine only). -/
structure SubTasks where
  doneClosed : Bool
  procRunning : Bool
  waiterWaiting : Bool
  wgCount : Nat
deriving Repr, DecidableEq

/-- The state right after `newSubscription` returns: `wg.Add(1)` was called
once and the `process` goroutine was spawned. -/
def initSubTasks : SubTasks := ⟨false, true, false, 1⟩

/-- Transitions of the subscription's tasks, each from `subscription.go`:

* `spawnWaiter` — `process` enters the wait branch and spawns the inner
  goroutine that blocks in `messagesCond.Wait` (no `wg.Add` there);
* `wakeWaiter` — a `Broadcast` on `messagesCond` (a new message, or the
  client's final broadcast at `Close`) releases the waiter, which unlocks
  and closes `msgWait`;
* `closeDone` — `stop` runs `close(s.done)`;
* `procExit` — with `s.done` closed, `process` observes it (via `select`
  or `active`) and returns, and the deferred `s.wg.Done()` runs; the
  `select` on `msgWait`/`s.done` lets this happen while the waiter is
  still blocked. -/
inductive SubStep : SubTasks → SubTasks → Prop
  | spawnWaiter (s : SubTasks) :
      s.procRunning = true → s.waiterWaiting = false →
      SubStep s ⟨s.doneClosed, s.procRunning, true, s.wgCount⟩
  | wakeWaiter (s : SubTasks) :
      s.waiterWaiting = true →
      SubStep s ⟨s.doneClosed, s.procRunning, false, s.wgCount⟩
  | closeDone (s : SubTasks) :
      s.doneClosed = false →
      SubStep s ⟨true, s.procRunning, s.waiterWaiting, s.wgCount⟩
  | procExit (s : SubTasks) :
      s.procRunning = true → s.doneClosed = true →
      SubStep s ⟨s.doneClosed, false, s.waiterWaiting, s.wgCount - 1⟩

/-- States the subscription's tasks can reach from `newSubscription`. -/
def ReachableSub (s : SubTasks) : Prop :=
  Relation.ReflTransGen SubStep initSubTasks s

/-- `stop` has returned: `close(s.done)` happened and `s.wg.Wait()`
observed a zero counter. -/
def stopReturned (s : SubTasks) : Prop :=
  s.doneClosed = true ∧ s.wgCount = 0

instance (s : SubTasks) : Decidable (stopReturned s) := by
  unfold stopReturned; infer_instance

theorem chainOK_newest {msgs : List Message} (hc : chainOK msgs) (hne : msgs ≠ []) :
    newestId msgs = oldestId msgs + ((msgs.length : Int) - 1) := by
  have hpos : 0 < msgs.length := List.length_pos.mpr hne
  have h := hc (msgs.length - 1) (by omega)
  unfold newestId oldestId
  rw [h]
  have : ((msgs.length - 1 : Nat) : Int) = (msgs.length : Int) - 1 := by omega
  rw [this]

theorem processStep_deliver_of {msgs : List Message} {id : Int}
    (hc : chainOK msgs) (hne : msgs ≠ [])
    (h1 : oldestId msgs ≤ id) (h2 : id ≤ newestId msgs) :
    processStep msgs id =
      .deliver (msgs.getD (id - oldestId msgs).toNat default) (id + 1) ∧
    (msgs.getD (id - oldestId msgs).toNat default).id = id := by
  have hpos : 0 < msgs.length := List.length_pos.mpr hne
  have hnew := chainOK_newest hc hne
  set k := (id - oldestId msgs).toNat with hk
  have hkc : (k : Int) = id - oldestId msgs := Int.toNat_of_nonneg (by omega)
  have hklt : k < msgs.length := by omega
  have hget : msgs[k]? = some (msgs.getD k default) := by
    rw [List.getD_eq_getElem _ _ hklt]
    exact List.getElem?_eq_getElem hklt
  have hid : (msgs.getD k default).id = id := by
    have := hc k hklt
    rw [this]
    unfold oldestId at hkc
    omega
  refine ⟨?_, hid⟩
  unfold processStep
  rw [if_neg (by simp [List.isEmpty_iff, hne]), if_neg (by omega), if_pos h2, ← hk, hget]

theorem processStep_skip_of {msgs : List Message} {id : Int}
    (hne : msgs ≠ []) (h : id < oldestId msgs) :
    processStep msgs id = .skip (newestId msgs + 1) := by
  unfold processStep
  rw [if_neg (by simp [List.isEmpty_iff, hne]), if_pos h]

theorem processStep_deliver_inv {msgs : List Message} {id nid : Int} {m : Message}
    (hc : chainOK msgs) (h : processStep msgs id = .deliver m nid) :
    m.id = id ∧ nid = id + 1 := by
  unfold processStep at h
  split at h
  · cases h
  · split at h
    · cases h
    · split at h
      · rename_i hnold hle
        cases hget : msgs[(id - oldestId msgs).toNat]? with
        | none => rw [hget] at h; cases h
        | some mm =>
          rw [hget] at h
          injection h with hm hn
          subst hm
          have hlt : (id - oldestId msgs).toNat < msgs.length :=
            (List.getElem?_eq_some_iff.mp hget).1
          have hmm : mm = msgs.getD (id - oldestId msgs).toNat default := by
            rw [List.getD_eq_getElem _ _ hlt]
            exact ((List.getElem?_eq_some_iff.mp hget).2).symm
          have hkc : ((id - oldestId msgs).toNat : Int) = id - oldestId msgs :=
            Int.toNat_of_nonneg (by omega)
          have hcm := hc _ hlt
          have ho : oldestId msgs = (msgs.getD 0 default).id := rfl
          refine ⟨?_, hn.symm⟩
          rw [hmm, hcm]
          omega
      · cases h

theorem processStep_skip_inv {msgs : List Message} {id nid : Int}
    (hc : chainOK msgs) (h : processStep msgs id = .skip nid) : id < nid := by
  unfold processStep at h
  split at h
  · cases h
  · split at h
    · rename_i hne hlt
      cases h
      have hne' : msgs ≠ [] := by simpa [List.isEmpty_iff] using hne
      have := chainOK_newest hc hne'
      have hpos : 0 < msgs.length := List.length_pos.mpr hne'
      omega
    · split at h
      · split at h <;> cases h
      · cases h

theorem deliveredIds_lb : ∀ (snaps : List (List Message)) (id : Int),
    (∀ s ∈ snaps, chainOK s) →
    ∀ d ∈ deliveredIds (runSub snaps id), id ≤ d := by
  intro snaps
  induction snaps with
  | nil => intro id _ d hd; simp [runSub, deliveredIds] at hd
  | cons s rest ih =>
    intro id hok d hd
    have hcs : chainOK s := hok s (by simp)
    have hrest : ∀ t ∈ rest, chainOK t := fun t ht => hok t (by simp [ht])
    rw [runSub] at hd
    cases hstep : processStep s id with
    | deliver m nid =>
      rw [hstep] at hd
      obtain ⟨hmid, hnid⟩ := processStep_deliver_inv hcs hstep
      simp only [deliveredIds, List.filterMap_cons] at hd
      simp only [deliveredIds] at ih
      rcases (by simpa using hd : d = m.id ∨ d ∈ (runSub rest nid).filterMap _) with h | h
      · omega
      · have := ih nid hrest d h
        omega
    | skip nid =>
      rw [hstep] at hd
      have hlt := processStep_skip_inv hcs hstep
      simp only [deliveredIds, List.filterMap_cons] at hd
      have := ih nid hrest d (by simpa [deliveredIds] using hd)
      omega
    | wait =>
      rw [hstep] at hd
      simp only [deliveredIds, List.filterMap_cons] at hd
      exact ih id hrest d (by simpa [deliveredIds] using hd)
    | crash =>
      rw [hstep] at hd
      simp [deliveredIds] at hd

theorem deliveredIds_sorted : ∀ (snaps : List (List Message)) (id : Int),
    (∀ s ∈ snaps, chainOK s) →
    (deliveredIds (runSub snaps id)).Pairwise (· < ·) := by
  intro snaps
  induction snaps with
  | nil => intro id _; simp [runSub, deliveredIds]
  | cons s rest ih =>
    intro id hok
    have hcs : chainOK s := hok s (by simp)
    have hrest : ∀ t ∈ rest, chainOK t := fun t ht => hok t (by simp [ht])
    rw [runSub]
    cases hstep : processStep s id with
    | deliver m nid =>
      obtain ⟨hmid, hnid⟩ := processStep_deliver_inv hcs hstep
      simp only [deliveredIds, List.filterMap_cons]
      refine List.Pairwise.cons ?_ (by simpa [deliveredIds] using ih nid hrest)
      intro d hd
      have := deliveredIds_lb rest nid hrest d (by simpa [deliveredIds] using hd)
      omega
    | skip nid =>
      simp only [deliveredIds, List.filterMap_cons]
      simpa [deliveredIds] using ih nid hrest
    | wait =>
      simp only [deliveredIds, List.filterMap_cons]
      simpa [deliveredIds] using ih id hrest
    | crash => simp [deliveredIds]

theorem runSub_noGaps : ∀ (snaps : List (List Message)) (id : Int) (expect : Option Int),
    (∀ s ∈ snaps, chainOK s) →
    (expect = none ∨ expect = some id) →
    noGaps expect (runSub snaps id) := by
  intro snaps
  induction snaps with
  | nil => intro id expect _ _; simp [runSub, noGaps]
  | cons s rest ih =>
    intro id expect hok hexp
    have hcs : chainOK s := hok s (by simp)
    have hrest : ∀ t ∈ rest, chainOK t := fun t ht => hok t (by simp [ht])
    cases hstep : processStep s id with
    | deliver m nid =>
      obtain ⟨hmid, hnid⟩ := processStep_deliver_inv hcs hstep
      have hr : runSub (s :: rest) id = .delivered m :: runSub rest nid := by
        rw [runSub, hstep]
      rw [hr]
      have htail : noGaps (some (m.id + 1)) (runSub rest nid) := by
        rw [hmid, hnid]
        exact ih (id + 1) (some (id + 1)) hrest (Or.inr rfl)
      rcases hexp with h | h <;> subst h
      · exact ⟨True.intro, htail⟩
      · exact ⟨hmid, htail⟩
    | skip nid =>
      have hr : runSub (s :: rest) id = .skipped nid :: runSub rest nid := by
        rw [runSub, hstep]
      rw [hr]
      exact ih nid none hrest (Or.inl rfl)
    | wait =>
      have hr : runSub (s :: rest) id = .waited :: runSub rest id := by
        rw [runSub, hstep]
      rw [hr]
      exact ih id expect hrest hexp
    | crash =>
      have hr : runSub (s :: rest) id = [.crashed] := by
        rw [runSub, hstep]
      rw [hr]
      exact True.intro

/-- Claim C1: a subscription whose cursor lies inside the retained window
`[oldest, newest]` of a non-empty, consecutively-numbered log has its worker
deliver the message at index `cursor - oldest` — whose id equals the
cursor — and advance the cursor by 1; and over a whole run, the ids
delivered to one subscription are strictly increasing (no duplicates), with
each delivery's id exactly one past the previous delivery except where a
skip-forward intervened. -/
theorem claim_C1_in_window_delivery {msgs : List Message} {id : Int}
    (hc : chainOK msgs) (hne : msgs ≠ [])
    (h1 : oldestId msgs ≤ id) (h2 : id ≤ newestId msgs) :
    (processStep msgs id =
        .deliver (msgs.getD (id - oldestId msgs).toNat default) (id + 1) ∧
      (msgs.getD (id - oldestId msgs).toNat default).id = id) ∧
    ∀ (snaps : List (List Message)) (start : Int),
      (∀ s ∈ snaps, chainOK s) →
      (deliveredIds (runSub snaps start)).Pairwise (· < ·) ∧
      noGaps (some start) (runSub snaps start) := by
  refine ⟨processStep_deliver_of hc hne h1 h2, ?_⟩
  intro snaps start hok
  exact ⟨deliveredIds_sorted snaps start hok,
    runSub_noGaps snaps start (some start) hok (Or.inr rfl)⟩

theorem claim_C1_witness :
    (processStep [⟨5, "C1", "x"⟩, ⟨6, "C1", "y"⟩] 6 =
        .deliver ([⟨5, "C1", "x"⟩, ⟨6, "C1", "y"⟩].getD
          ((6 : Int) - oldestId [⟨5, "C1", "x"⟩, ⟨6, "C1", "y"⟩]).toNat default) 7 ∧
      ((([⟨5, "C1", "x"⟩, ⟨6, "C1", "y"⟩] : List Message).getD
          ((6 : Int) - oldestId [⟨5, "C1", "x"⟩, ⟨6, "C1", "y"⟩]).toNat default)).id = 6) ∧
    ((deliveredIds (runSub [[⟨5, "C1", "x"⟩], [⟨5, "C1", "x"⟩, ⟨6, "C1", "y"⟩]] 5)).Pairwise
        (· < ·) ∧
      noGaps (some 5) (runSub [[⟨5, "C1", "x"⟩], [⟨5, "C1", "x"⟩, ⟨6, "C1", "y"⟩]] 5)) := by
  have h := @claim_C1_in_window_delivery [⟨5, "C1", "x"⟩, ⟨6, "C1", "y"⟩] 6
    (by decide) (by decide) (by decide) (by decide)
  exact ⟨h.1, h.2 [[⟨5, "C1", "x"⟩], [⟨5, "C1", "x"⟩, ⟨6, "C1", "y"⟩]] 5 (by decide)⟩

/-- Claim C2: a subscription whose cursor is strictly below the oldest
retained id of a non-empty log is skipped forward to one past the newest
retained id; every message it can subsequently receive has an id of at
least `newest + 1`, so nothing between the old and the new cursor is ever
delivered to it. -/
theorem claim_C2_skip_forward {msgs : List Message} {id : Int}
    (hc : chainOK msgs) (hne : msgs ≠ []) (h : id < oldestId msgs) :
    processStep msgs id = .skip (newestId msgs + 1) ∧
    ∀ rest : List (List Message), (∀ s ∈ rest, chainOK s) →
      runSub (msgs :: rest) id =
        .skipped (newestId msgs + 1) :: runSub rest (newestId msgs + 1) ∧
      ∀ d ∈ deliveredIds (runSub rest (newestId msgs + 1)), newestId msgs + 1 ≤ d := by
  have hskip := processStep_skip_of hne h
  refine ⟨hskip, ?_⟩
  intro rest hok
  constructor
  · rw [runSub, hskip]
  · exact deliveredIds_lb rest (newestId msgs + 1) hok

theorem claim_C2_witness :
    (processStep [⟨5, "C1", "x"⟩, ⟨6, "C1", "y"⟩, ⟨7, "C1", "z"⟩] 0 = .skip 8 ∧
      runSub [[⟨5, "C1", "x"⟩, ⟨6, "C1", "y"⟩, ⟨7, "C1", "z"⟩],
          [⟨5, "C1", "x"⟩, ⟨6, "C1", "y"⟩, ⟨7, "C1", "z"⟩]] 0 =
        .skipped 8 :: runSub [[⟨5, "C1", "x"⟩, ⟨6, "C1", "y"⟩, ⟨7, "C1", "z"⟩]] 8) ∧
    ∀ d ∈ deliveredIds (runSub [[⟨5, "C1", "x"⟩, ⟨6, "C1", "y"⟩, ⟨7, "C1", "z"⟩]] 8),
      (8 : Int) ≤ d := by
  have h := @claim_C2_skip_forward [⟨5, "C1", "x"⟩, ⟨6, "C1", "y"⟩, ⟨7, "C1", "z"⟩] 0
    (by decide) (by decide) (by decide)
  have h2 := h.2 [[⟨5, "C1", "x"⟩, ⟨6, "C1", "y"⟩, ⟨7, "C1", "z"⟩]] (by decide)
  have e : newestId [⟨5, "C1", "x"⟩, ⟨6, "C1", "y"⟩, ⟨7, "C1", "z"⟩] + 1 = 8 := by decide
  refine ⟨⟨?_, ?_⟩, ?_⟩
  · have := h.1; rwa [e] at this
  · have := h2.1; rwa [e] at this
  · have := h2.2; rwa [e] at this

theorem getD_tail_eq (l : List Message) (i : Nat) :
    l.tail.getD i default = l.getD (i + 1) default := by
  cases l with
  | nil => simp
  | cons a l => simp [List.getD_cons_succ]

theorem appended_ids {log : ClientLog} (h : logOK log) (channel text : String) :
    ∀ j < log.messages.length + 1,
      ((log.messages ++ [newMessage log channel text]).getD j default).id =
        (log.nextMessageID + 1) - ((log.messages.length : Int) + 1) + (j : Int) := by
  intro j hj
  rcases Nat.lt_or_ge j log.messages.length with hlt | hge
  · rw [List.getD_append _ _ _ _ hlt]
    have := h j hlt
    omega
  · have hj' : j = log.messages.length := by omega
    subst hj'
    rw [List.getD_append_right _ _ _ _ hge, Nat.sub_self]
    show (newMessage log channel text).id = _
    unfold newMessage
    push_cast
    ring

theorem appendMessage_nextID (cap : Nat) (log : ClientLog) (channel text : String) :
    (appendMessage cap log channel text).nextMessageID = log.nextMessageID + 1 := rfl

theorem appendMessage_messages (cap : Nat) (log : ClientLog) (channel text : String) :
    (appendMessage cap log channel text).messages =
      if cap < (log.messages ++ [newMessage log channel text]).length then
        (log.messages ++ [newMessage log channel text]).tail
      else log.messages ++ [newMessage log channel text] := rfl

theorem appendMessage_logOK {log : ClientLog} (cap : Nat) (h : logOK log)
    (channel text : String) : logOK (appendMessage cap log channel text) := by
  have hids := appended_ids h channel text
  unfold logOK
  rw [appendMessage_messages, appendMessage_nextID]
  by_cases hcap : cap < (log.messages ++ [newMessage log channel text]).length
  · rw [if_pos hcap]
    intro i hi
    have hlen : (log.messages ++ [newMessage log channel text]).tail.length =
        log.messages.length := by
      simp [List.length_tail]
    rw [hlen] at hi ⊢
    rw [getD_tail_eq]
    have := hids (i + 1) (by omega)
    rw [this]
    push_cast
    ring
  · rw [if_neg hcap]
    intro i hi
    have hL : (log.messages ++ [newMessage log channel text]).length =
        log.messages.length + 1 := by simp
    rw [hL] at hi ⊢
    have := hids i (by omega)
    rw [this]
    push_cast
    ring

theorem appendMessage_len_le {log : ClientLog} {cap : Nat}
    (h : log.messages.length ≤ cap) (channel text : String) :
    (appendMessage cap log channel text).messages.length ≤ cap := by
  rw [appendMessage_messages]
  by_cases hcap : cap < (log.messages ++ [newMessage log channel text]).length
  · rw [if_pos hcap]
    simp only [List.length_tail, List.length_append, List.length_singleton] at hcap ⊢
    omega
  · rw [if_neg hcap]
    simp only [List.length_append, List.length_singleton] at hcap ⊢
    omega

theorem appendMany_logOK (xs : List (String × String)) :
    ∀ (cap : Nat) (log : ClientLog), logOK log →
      logOK (appendMany cap log xs) ∧
      (appendMany cap log xs).nextMessageID = log.nextMessageID + (xs.length : Int) := by
  induction xs with
  | nil => intro cap log h; exact ⟨h, by simp [appendMany]⟩
  | cons x xs ih =>
    intro cap log h
    have hstep := appendMessage_logOK cap h x.1 x.2
    have hrec := ih cap (appendMessage cap log x.1 x.2) hstep
    refine ⟨hrec.1, ?_⟩
    rw [show appendMany cap log (x :: xs) =
      appendMany cap (appendMessage cap log x.1 x.2) xs from rfl, hrec.2,
      appendMessage_nextID]
    simp only [List.length_cons]
    push_cast
    ring

/-- Claim C3: every accepted append assigns id `nextID` and then increments
`nextID` by exactly 1 (so ids over any sequence of accepted appends are
strictly increasing by 1 per message), and the log invariant — consecutive
ids with `messages[0].id ≤ messages[last].id = nextID - 1` — is preserved by
every append, evicting or not, and hence by every append sequence. -/
theorem claim_C3_id_invariant (cap : Nat) (log : ClientLog) (channel text : String)
    (xs : List (String × String)) (h : logOK log) :
    (newMessage log channel text).id = log.nextMessageID ∧
    (appendMessage cap log channel text).nextMessageID = log.nextMessageID + 1 ∧
    logOK (appendMessage cap log channel text) ∧
    logOK (appendMany cap log xs) ∧
    (appendMany cap log xs).nextMessageID = log.nextMessageID + (xs.length : Int) := by
  refine ⟨rfl, rfl, appendMessage_logOK cap h channel text, ?_, ?_⟩
  · exact (appendMany_logOK xs cap log h).1
  · exact (appendMany_logOK xs cap log h).2

theorem claim_C3_witness :
    (newMessage ⟨[⟨5, "C1", "x"⟩, ⟨6, "C1", "y"⟩], 7⟩ "C1" "z").id = 7 ∧
    (appendMessage 2 ⟨[⟨5, "C1", "x"⟩, ⟨6, "C1", "y"⟩], 7⟩ "C1" "z").nextMessageID = 8 ∧
    logOK (appendMessage 2 ⟨[⟨5, "C1", "x"⟩, ⟨6, "C1", "y"⟩], 7⟩ "C1" "z") ∧
    logOK (appendMany 2 ⟨[⟨5, "C1", "x"⟩, ⟨6, "C1", "y"⟩], 7⟩ [("C1", "a"), ("C1", "b")]) ∧
    (appendMany 2 ⟨[⟨5, "C1", "x"⟩, ⟨6, "C1", "y"⟩], 7⟩
        [("C1", "a"), ("C1", "b")]).nextMessageID = 7 + (2 : Int) := by
  have h := claim_C3_id_invariant 2 ⟨[⟨5, "C1", "x"⟩, ⟨6, "C1", "y"⟩], 7⟩ "C1" "z"
    [("C1", "a"), ("C1", "b")] (by decide)
  exact h

theorem drop_tail_append (A S : List Message) (k : Nat) (hA : A ≠ []) :
    (A.tail ++ S).drop k = (A ++ S).drop (k + 1) := by
  obtain ⟨a, A', rfl⟩ := List.exists_cons_of_ne_nil hA
  simp [List.drop_succ_cons]

theorem appendMany_messages (xs : List (String × String)) :
    ∀ (cap : Nat) (log : ClientLog), log.messages.length ≤ cap →
      (appendMany cap log xs).messages =
        (log.messages ++ streamFrom log.nextMessageID xs).drop
          ((log.messages.length + xs.length) - cap) := by
  induction xs with
  | nil =>
    intro cap log h
    show log.messages = _
    rw [show streamFrom log.nextMessageID [] = [] from rfl, List.append_nil]
    simp only [List.length_nil, Nat.add_zero]
    rw [Nat.sub_eq_zero_of_le h, List.drop_zero]
  | cons x xs ih =>
    intro cap log h
    have hstep : appendMany cap log (x :: xs) =
        appendMany cap (appendMessage cap log x.1 x.2) xs := rfl
    have hlen := appendMessage_len_le h x.1 x.2
    have hrec := ih cap (appendMessage cap log x.1 x.2) hlen
    rw [hstep, hrec]
    have hsf : streamFrom log.nextMessageID (x :: xs) =
        newMessage log x.1 x.2 :: streamFrom (log.nextMessageID + 1) xs := rfl
    rw [hsf]
    have hrw : log.messages ++ newMessage log x.1 x.2 :: streamFrom (log.nextMessageID + 1) xs =
        (log.messages ++ [newMessage log x.1 x.2]) ++ streamFrom (log.nextMessageID + 1) xs := by
      simp
    rw [hrw]
    unfold appendMessage
    simp only []
    split
    · rename_i hcap
      simp only [List.length_append, List.length_singleton] at hcap
      have hc : cap = log.messages.length := by omega
      rw [drop_tail_append _ _ _ (by simp)]
      congr 1
      simp [List.length_tail, hc]
    · rename_i hcap
      simp only [List.length_append, List.length_singleton] at hcap
      congr 1
      simp
      omega

/-- Claim C4: starting from any log state within capacity, a sequence of
`cap + 1` accepted appends leaves the log holding exactly the `cap` most
recent appended messages — the first appended message (the oldest) is the
one evicted — each still carrying the id assigned at its append (no
renumbering). -/
theorem claim_C4_rollover (cap : Nat) (log : ClientLog) (xs : List (String × String))
    (h1 : log.messages.length ≤ cap) (h2 : xs.length = cap + 1) :
    (appendMany cap log xs).messages = (streamFrom log.nextMessageID xs).drop 1 ∧
    (appendMany cap log xs).messages.length = cap := by
  have hsl : ∀ (n : Int) (ys : List (String × String)),
      (streamFrom n ys).length = ys.length := by
    intro n ys
    induction ys generalizing n with
    | nil => rfl
    | cons y ys ih => simp [streamFrom, ih]
  have hmain := appendMany_messages xs cap log h1
  have harith : (log.messages.length + xs.length) - cap = log.messages.length + 1 := by
    omega
  rw [hmain, harith]
  have hdrop : (log.messages ++ streamFrom log.nextMessageID xs).drop
      (log.messages.length + 1) = (streamFrom log.nextMessageID xs).drop 1 :=
    List.drop_append 1
  rw [hdrop]
  refine ⟨rfl, ?_⟩
  rw [List.length_drop, hsl]
  omega

theorem claim_C4_witness :
    (appendMany 2 ⟨[], 5⟩ [("C1", "a"), ("C1", "b"), ("C1", "c")]).messages =
      (streamFrom 5 [("C1", "a"), ("C1", "b"), ("C1", "c")]).drop 1 ∧
    (appendMany 2 ⟨[], 5⟩ [("C1", "a"), ("C1", "b"), ("C1", "c")]).messages.length = 2 :=
  claim_C4_rollover 2 ⟨[], 5⟩ [("C1", "a"), ("C1", "b"), ("C1", "c")]
    (by decide) (by decide)

/-- Claim C5: the ingestion handler leaves the log untouched (drops the
event silently) exactly when the event is not a plain message, is a
connection-echo acknowledgement (`ReplyTo` set), belongs to a thread reply,
or carries empty text; every other event is accepted and appended. -/
theorem claim_C5_filter (cap : Nat) (log : ClientLog) (m : MessageEvent) :
    (distribute cap log m = log ↔
      (m.type ≠ "message" ∨ m.replyTo > 0 ∨ m.threadTimestamp ≠ "" ∨ m.text = "")) ∧
    (¬(m.type ≠ "message" ∨ m.replyTo > 0 ∨ m.threadTimestamp ≠ "" ∨ m.text = "") →
      distribute cap log m = appendMessage cap log m.channel m.text) := by
  have hdrop : dropsEvent m = true ↔
      (m.type ≠ "message" ∨ m.replyTo > 0 ∨ m.threadTimestamp ≠ "" ∨ m.text = "") := by
    unfold dropsEvent
    simp [Bool.or_eq_true, bne_iff_ne, decide_eq_true_eq, or_assoc]
  have happ : appendMessage cap log m.channel m.text ≠ log := by
    intro hcontra
    have := congrArg ClientLog.nextMessageID hcontra
    rw [appendMessage_nextID] at this
    omega
  unfold distribute
  by_cases hd : dropsEvent m
  · rw [if_pos hd]
    exact ⟨⟨fun _ => hdrop.mp hd, fun _ => rfl⟩, fun hn => absurd (hdrop.mp hd) hn⟩
  · rw [if_neg hd]
    refine ⟨⟨fun hcontra => absurd hcontra happ, fun hp => ?_⟩, fun _ => rfl⟩
    exact absurd (hdrop.mpr hp) hd

theorem claim_C5_witness :
    (distribute 16 ⟨[], 0⟩ ⟨"message", 0, "", "C1", "hi"⟩ = ⟨[], 0⟩ ↔
      (("message" : String) ≠ "message" ∨ (0 : Int) > 0 ∨ ("" : String) ≠ "" ∨
        ("hi" : String) = "")) ∧
    (distribute 16 ⟨[], 0⟩ ⟨"message", 0, "", "C1", "hi"⟩ =
      appendMessage 16 ⟨[], 0⟩ "C1" "hi") ∧
    (distribute 16 ⟨[], 0⟩ ⟨"message", 2, "", "C1", "hi"⟩ = ⟨[], 0⟩) := by
  have h1 := claim_C5_filter 16 ⟨[], 0⟩ ⟨"message", 0, "", "C1", "hi"⟩
  have h2 := claim_C5_filter 16 ⟨[], 0⟩ ⟨"message", 2, "", "C1", "hi"⟩
  refine ⟨h1.1, h1.2 (by decide), h2.1.mpr (by decide)⟩

/-- Claim C6: within one timer window, the first unit becomes the buffer,
every further unit is appended as delimiter-plus-unit, `timeAfter` is
invoked only on receiving a unit while no timer is armed, and a timer
expiry with a non-empty buffer emits exactly that buffer as one batch and
clears it; in particular units "a" then "b" followed by the timer firing
yield exactly the single batch "a b" for delimiter " ". -/
theorem claim_C6_window (delim : String) :
    (∀ (st : BState) (s : String), st.output = "" →
      stepB delim st (.unit s) = (⟨s, true⟩, [])) ∧
    (∀ (st : BState) (s : String), st.output ≠ "" →
      stepB delim st (.unit s) = (⟨st.output ++ delim ++ s, true⟩, [])) ∧
    (∀ (st : BState) (s : String), armsTimer st (.unit s) = !st.timerArmed) ∧
    (∀ st : BState, armsTimer st .timer = false) ∧
    (∀ st : BState, st.output ≠ "" → stepB delim st .timer = (⟨"", false⟩, [st.output])) ∧
    runSteps " " initBState [.unit "a", .unit "b", .timer] = (⟨"", false⟩, ["a b"]) := by
  refine ⟨?_, ?_, fun _ _ => rfl, fun _ => rfl, ?_, by decide⟩
  · intro st s h
    simp [stepB, h]
  · intro st s h
    simp [stepB, h]
  · intro st h
    simp [stepB, flushBatches, h]

theorem claim_C6_witness :
    stepB " " ⟨"", false⟩ (.unit "a") = (⟨"a", true⟩, []) ∧
    stepB " " ⟨"a", true⟩ (.unit "b") = (⟨"a b", true⟩, []) ∧
    armsTimer ⟨"", false⟩ (.unit "a") = true ∧
    armsTimer ⟨"a", true⟩ .timer = false ∧
    stepB " " ⟨"a b", true⟩ .timer = (⟨"", false⟩, ["a b"]) ∧
    runSteps " " initBState [.unit "a", .unit "b", .timer] = (⟨"", false⟩, ["a b"]) := by
  have h := claim_C6_window " "
  exact ⟨h.1 ⟨"", false⟩ "a" rfl, h.2.1 ⟨"a", true⟩ "b" (by decide),
    h.2.2.1 ⟨"", false⟩ "a", h.2.2.2.1 ⟨"a", true⟩,
    h.2.2.2.2.1 ⟨"a b", true⟩ (by decide), h.2.2.2.2.2⟩

/-- Claim C7 counterexample: the upstream's terminal error is not always
propagated verbatim.  With the upstream terminated mid-stream carrying the
non-nil terminal error "sample reader error" (sent on its buffered error
channel before its unit channel closes, as `LineBatcher` does), the final
select can take the closed-channel branch; the loop then returns without
reading the pending error, the output error channel is closed empty, and
the consumer reads nil instead of the error.  The buffered batch "c" is
still flushed. -/
theorem claim_C7_counterexample :
    (runBatcherFrom " " [.unit "c"]
        (some "sample reader error") .closedSeen).2 = none ∧
    (runBatcherFrom " " [.unit "c"]
        (some "sample reader error") .closedSeen).2 ≠ some "sample reader error" ∧
    (runBatcherFrom " " [.unit "c"]
        (some "sample reader error") .closedSeen).1 = ["c"] := by
  decide

/-- Claim C7, amended: on every upstream termination the deferred
`flushOutput` emits any non-empty buffered content as a final batch — no
buffered data is dropped, whichever branch the final select takes; the
terminal error is propagated verbatim exactly when the loop observes the
upstream's error channel, while a select that instead takes the
closed-unit-channel branch returns with the pending error unread and the
consumer reads nil — so a non-nil terminal error can be lost on that
(reachable) interleaving. -/
theorem claim_C7_flush_and_observed_error {ε : Type} (delim : String)
    (evs : List BEvent) (upErr : Option ε) :
    (∀ obs : TermObserved,
      (runBatcherFrom delim evs upErr obs).1 =
        (runSteps delim initBState evs).2 ++
          flushBatches (runSteps delim initBState evs).1 ∧
      ((runSteps delim initBState evs).1.output ≠ "" →
        (runBatcherFrom delim evs upErr obs).1 =
          (runSteps delim initBState evs).2 ++
            [(runSteps delim initBState evs).1.output])) ∧
    (runBatcherFrom delim evs upErr .errorRead).2 = upErr ∧
    (runBatcherFrom delim evs upErr .closedSeen).2 = none := by
  refine ⟨?_, rfl, rfl⟩
  intro obs
  have hout : (runBatcherFrom delim evs upErr obs).1 =
      (runSteps delim initBState evs).2 ++
        flushBatches (runSteps delim initBState evs).1 := by
    cases obs <;> rfl
  refine ⟨hout, fun hne => ?_⟩
  rw [hout]
  unfold flushBatches
  rw [if_neg hne]

theorem claim_C7_flush_witness :
    (runBatcherFrom " " [.unit "a", .unit "b"] (some "boom") .errorRead
        : List String × Option String).1 =
      (runSteps " " initBState [.unit "a", .unit "b"]).2 ++
        [(runSteps " " initBState [.unit "a", .unit "b"]).1.output] ∧
    (runBatcherFrom " " [.unit "a", .unit "b"] (some "boom") .errorRead).2 =
      some "boom" ∧
    (runBatcherFrom " " [.unit "a", .unit "b"] (some "boom") .closedSeen).2 = none := by
  have h := @claim_C7_flush_and_observed_error String " " [.unit "a", .unit "b"]
    (some "boom")
  exact ⟨(h.1 .errorRead).2 (by decide), h.2.1, h.2.2⟩

theorem runSteps_batches_ne_empty {delim : String} :
    ∀ (evs : List BEvent) (st : BState),
      ∀ b ∈ (runSteps delim st evs).2, b ≠ "" := by
  intro evs
  induction evs with
  | nil => intro st b hb; simp [runSteps] at hb
  | cons e es ih =>
    intro st b hb
    rw [runSteps] at hb
    simp only [List.mem_append] at hb
    rcases hb with hb | hb
    · cases e with
      | unit s => simp [stepB] at hb
      | timer =>
        simp only [stepB] at hb
        unfold flushBatches at hb
        split at hb
        · simp at hb
        · rename_i hne
          simp at hb
          rw [hb]
          exact hne
    · exact ih _ b hb

/-- Claim C8: no batch the interval batcher ever emits is the empty string,
and a termination that finds the buffer empty adds no final batch. -/
theorem claim_C8_no_empty_batch {ε : Type} (delim : String) (evs : List BEvent)
    (t : BTermination ε) :
    (∀ b ∈ (runBatcher delim evs t).1, b ≠ "") ∧
    ((runSteps delim initBState evs).1.output = "" →
      (runBatcher delim evs t).1 = (runSteps delim initBState evs).2) := by
  have hout : (runBatcher delim evs t).1 =
      (runSteps delim initBState evs).2 ++
        flushBatches (runSteps delim initBState evs).1 := by
    cases t <;> rfl
  constructor
  · intro b hb
    rw [hout] at hb
    simp only [List.mem_append] at hb
    rcases hb with hb | hb
    · exact runSteps_batches_ne_empty evs initBState b hb
    · unfold flushBatches at hb
      split at hb
      · simp at hb
      · rename_i hne
        simp at hb
        rw [hb]
        exact hne
  · intro hempty
    rw [hout]
    unfold flushBatches
    rw [if_pos hempty, List.append_nil]

theorem claim_C8_witness :
    (∀ b ∈ (runBatcher " " [.unit "a", .timer]
      (.closed : BTermination String)).1, b ≠ "") ∧
    (runBatcher " " [.unit "a", .timer] (.closed : BTermination String)).1 =
      (runSteps " " initBState [.unit "a", .timer]).2 := by
  have h := @claim_C8_no_empty_batch String " " [.unit "a", .timer] .closed
  exact ⟨h.1, h.2 (by decide)⟩

theorem reachable_wgCount {s : SubTasks} (h : ReachableSub s) :
    s.wgCount = if s.procRunning then 1 else 0 := by
  induction h with
  | refl => rfl
  | tail hab hbc ih =>
    cases hbc with
    | spawnWaiter h1 h2 => simpa using ih
    | wakeWaiter h1 => simpa using ih
    | closeDone h1 => simpa using ih
    | procExit h1 h2 =>
      rw [h1] at ih
      simp at ih ⊢
      omega

/-- Claim C9 counterexample: the claim that `stop()` cannot return while any
task of the subscription — including an inner waiter goroutine — is still
running is violated by the code.  The wait group counts only the `process`
goroutine, so from `newSubscription` the system can spawn a waiter, have
`stop` close `done`, and have `process` exit via the `select` on
`done`, leaving `wg.Wait` (and hence `stop`) free to return while the
waiter is still blocked in `messagesCond.Wait`. -/
theorem claim_C9_counterexample :
    ReachableSub ⟨true, false, true, 0⟩ ∧ stopReturned ⟨true, false, true, 0⟩ ∧
    (⟨true, false, true, 0⟩ : SubTasks).waiterWaiting = true := by
  refine ⟨?_, by decide, rfl⟩
  have h1 : SubStep initSubTasks ⟨false, true, true, 1⟩ :=
    SubStep.spawnWaiter initSubTasks rfl rfl
  have h2 : SubStep ⟨false, true, true, 1⟩ ⟨true, true, true, 1⟩ :=
    SubStep.closeDone _ rfl
  have h3 : SubStep ⟨true, true, true, 1⟩ ⟨true, false, true, 0⟩ :=
    SubStep.procExit _ rfl rfl
  exact Relation.ReflTransGen.head h1
    (Relation.ReflTransGen.head h2 (Relation.ReflTransGen.single h3))

/-- Claim C9, amended: `stop()` does not return until the `process` worker
goroutine has exited — the wait group counts exactly that goroutine — but
the inner waiter goroutine is not tracked by the wait group and may still
be blocked on the condition variable after `stop()` returns (it is released
by a later broadcast, e.g. the client's final broadcast at `Close`). -/
theorem claim_C9_stop_joins_worker {s : SubTasks} (h1 : ReachableSub s)
    (h2 : stopReturned s) : s.procRunning = false := by
  have hwg := reachable_wgCount h1
  rcases h2 with ⟨hd, hw⟩
  by_contra hp
  rw [Bool.not_eq_false] at hp
  rw [hp] at hwg
  simp at hwg
  omega

theorem claim_C9_stop_joins_worker_witness :
    (⟨true, false, false, 0⟩ : SubTasks).procRunning = false := by
  have h1 : SubStep initSubTasks ⟨true, true, false, 1⟩ :=
    SubStep.closeDone _ rfl
  have h2 : SubStep ⟨true, true, false, 1⟩ ⟨true, false, false, 0⟩ :=
    SubStep.procExit _ rfl rfl
  exact claim_C9_stop_joins_worker
    (Relation.ReflTransGen.head h1 (Relation.ReflTransGen.single h2)) (by decide)

theorem splitOn_first_nl {a : List Char} (h : '\n' ∉ a) (rest : List Char) :
    (a ++ '\n' :: rest).splitOn '\n' = a :: rest.splitOn '\n' := by
  refine List.splitOnP_first (fun c => c == '\n') a ?_ '\n' (by simp) rest
  intro x hx
  simp only [beq_iff_eq]
  rintro rfl
  exact h hx

theorem splitOn_no_nl {a : List Char} (h : '\n' ∉ a) : a.splitOn '\n' = [a] := by
  exact List.splitOnP_eq_single _ _ (fun x hx => by
    simp only [beq_iff_eq]
    rintro rfl
    exact h hx)

theorem splitOn_concat_nl (l : List Char) :
    (l ++ ['\n']).splitOn '\n' = l.splitOn '\n' ++ [[]] := by
  induction l with
  | nil => rfl
  | cons c l ih =>
    show ((c :: (l ++ ['\n'])).splitOnP (· == '\n')) = _
    rw [List.splitOnP_cons]
    by_cases hc : c = '\n'
    · subst hc
      rw [if_pos (by simp)]
      show [] :: (l ++ ['\n']).splitOn '\n' = _
      rw [ih]
      rfl
    · rw [if_neg (by simp [hc])]
      show ((l ++ ['\n']).splitOn '\n').modifyHead (List.cons c) = _
      rw [ih]
      obtain ⟨p, ps, hps⟩ : ∃ p ps, l.splitOn '\n' = p :: ps := by
        cases hsp : l.splitOn '\n' with
        | nil => exact absurd hsp (List.splitOnP_ne_nil _ l)
        | cons p ps => exact ⟨p, ps, rfl⟩
      rw [hps]
      show (c :: p) :: (ps ++ [[]]) = _
      have : (c :: l).splitOn '\n' = (c :: p) :: ps := by
        show (c :: l).splitOnP (· == '\n') = _
        rw [List.splitOnP_cons, if_neg (by simp [hc])]
        show (l.splitOn '\n').modifyHead (List.cons c) = _
        rw [hps]
        rfl
      rw [this]
      rfl

theorem scanTokensAux_spec :
    ∀ (cs acc : List Char), '\n' ∉ acc →
      scanTokensAux acc cs = (specLines (acc ++ cs)).map dropCR := by
  intro cs
  induction cs with
  | nil =>
    intro acc hacc
    rw [scanTokensAux, List.append_nil]
    unfold specLines
    by_cases ha : acc = []
    · subst ha; rfl
    · rw [if_neg ha, splitOn_no_nl hacc]
      have hlast : acc.getLast? ≠ some '\n' := by
        intro hcontra
        exact hacc (List.mem_of_getLast?_eq_some hcontra)
      rw [if_neg hlast]
      simp [List.isEmpty_iff, ha]
  | cons c rest ih =>
    intro acc hacc
    rw [scanTokensAux]
    by_cases hc : c = '\n'
    · subst hc
      rw [if_pos rfl]
      unfold specLines
      rw [if_neg (by simp)]
      rw [splitOn_first_nl hacc]
      by_cases hrest : rest = []
      · subst hrest
        have hlast : (acc ++ ['\n']).getLast? = some '\n' := by
          rw [List.getLast?_append]
          rfl
        rw [if_pos hlast]
        rfl
      · have hlast : (acc ++ '\n' :: rest).getLast? = rest.getLast? := by
          rw [List.getLast?_append, List.getLast?_cons]
          cases hr : rest.getLast? with
          | none => exact absurd (List.getLast?_eq_none_iff.mp hr) hrest
          | some x => rfl
        rw [hlast]
        have hrec := ih [] (by simp)
        rw [List.nil_append] at hrec
        rw [hrec]
        unfold specLines
        rw [if_neg hrest]
        by_cases hnl : rest.getLast? = some '\n'
        · rw [if_pos hnl, if_pos hnl]
          rw [List.dropLast_cons_of_ne_nil
            (show rest.splitOn '\n' ≠ [] from List.splitOnP_ne_nil _ rest)]
          rfl
        · rw [if_neg hnl, if_neg hnl]
          rfl
    · rw [if_neg hc]
      have hacc2 : '\n' ∉ acc ++ [c] := by
        simp [hacc]
        exact fun hcontra => hc hcontra.symm
      have := ih (acc ++ [c]) hacc2
      rw [this, List.append_assoc]
      rfl

/-- Claim C10 counterexample: the line batcher does not emit the input's
newline-separated lines unmodified — `bufio.ScanLines` strips one trailing
carriage return from each line, so input "a\r\nb" yields tokens "a", "b"
while its newline-separated lines are "a\r", "b". -/
theorem claim_C10_counterexample :
    lineBatcherRun ['a', '\r', '\n', 'b'] (none : Option Unit) ≠
      (specLines ['a', '\r', '\n', 'b'], (none : Option Unit)) := by
  decide

/-- Claim C10, amended: for every finite input stream, the line batcher
emits the input's newline-separated lines in order, each unmodified except
that one trailing carriage return is stripped (`bufio.ScanLines`); a
trailing partial line at EOF is emitted as if it were newline-terminated;
and after the output closes the error channel yields nil on plain EOF
(`readErr = none`) and the source reader's error otherwise (`readErr`
itself). -/
theorem claim_C10_line_batcher {ε : Type} (content : List Char) (readErr : Option ε) :
    lineBatcherRun content readErr = ((specLines content).map dropCR, readErr) ∧
    (content ≠ [] → content.getLast? ≠ some '\n' →
      scanTokens content = scanTokens (content ++ ['\n'])) := by
  have hmain : ∀ l : List Char, scanTokens l = (specLines l).map dropCR := by
    intro l
    have := scanTokensAux_spec l [] (by simp)
    rw [List.nil_append] at this
    exact this
  constructor
  · unfold lineBatcherRun
    rw [hmain content]
  · intro hne hnl
    rw [hmain content, hmain (content ++ ['\n'])]
    congr 1
    unfold specLines
    have hyne : content ++ ['\n'] ≠ [] := by simp
    have hlast : (content ++ ['\n']).getLast? = some '\n' := by
      rw [List.getLast?_append]
      rfl
    rw [if_neg hne, if_neg hnl, if_neg hyne, if_pos hlast, splitOn_concat_nl,
      List.dropLast_concat]

theorem claim_C10_line_batcher_witness :
    lineBatcherRun ['a', '\n', 'b'] (some "readfail") =
      ((specLines ['a', '\n', 'b']).map dropCR, some "readfail") ∧
    scanTokens ['a', '\n', 'b'] = scanTokens ['a', '\n', 'b', '\n'] := by
  have h := claim_C10_line_batcher ['a', '\n', 'b'] (some "readfail")
  refine ⟨h.1, ?_⟩
  have := h.2 (by decide) (by decide)
  simpa using this

end Slackio
